import Mathlib

/-!
Verification development for the Resource Command Framework of the
gcutil-1.8.0 command-line client.  The framework lives in
`command_base.py`, which is not part of the source snapshot (only its
unit tests in `command_base_test.py` and its callers such as
`disk_cmds.py` and `instance_cmds.py` are), so the framework operations
below are modelled from the natural-language specification, with the
concrete behaviours pinned by the unit tests that are in the snapshot.

The embedding works on `String` values through their underlying
character lists, so every definition is executable and every concrete
scenario from the tests can be evaluated by `decide`.
-/

namespace Gcutil

/-- Split a character list at `'/'` separators, keeping the first segment
and the remaining segments apart so that the result is structurally
non-empty.  Empty segments (from leading, trailing or doubled slashes)
are kept here and filtered by `segsList`. -/
def splitChP : List Char → List Char × List (List Char)
  | [] => ([], [])
  | c :: cs =>
    let r := splitChP cs
    if c = '/' then ([], r.1 :: r.2) else (c :: r.1, r.2)

/-- All `'/'`-separated segments of a character list, empty ones included. -/
def splitCh (cs : List Char) : List (List Char) :=
  (splitChP cs).1 :: (splitChP cs).2

/-- The non-empty `'/'`-separated segments of a character list.  This is the
path-segment view used by the Resource Locator model. -/
def segsList (cs : List Char) : List (List Char) :=
  (splitCh cs).filter (fun s => s ≠ [])

/-- Join segments back with `'/'` separators. -/
def joinCh : List (List Char) → List Char
  | [] => []
  | [s] => s
  | s :: ss => s ++ '/' :: joinCh ss

/-- Drop an expected literal prefix from a character list, or fail. -/
def dropPrefixCh : List Char → List Char → Option (List Char)
  | [], s => some s
  | _ :: _, [] => none
  | p :: ps, c :: cs => if p = c then dropPrefixCh ps cs else none

/-- The characters of the fixed API base URL used by the client, without
the version segment (`https://www.googleapis.com/compute/`). -/
def apiRoot : List Char := "https://www.googleapis.com/compute/".data

/-- Modelled from the spec: the `<api-base>/<version>/` prefix of every
canonical absolute URL built by the Resource Locator. -/
def apiBaseCh (version : String) : List Char :=
  apiRoot ++ version.data ++ ['/']

/-- Modelled from the spec: if the reference is already a fully-qualified
absolute URL under the active version's API base, strip that base and keep
only the resource path; otherwise keep the reference as given. -/
def stripBase (version : String) (ref : String) : List Char :=
  match dropPrefixCh (apiBaseCh version) ref.data with
  | some rest => rest
  | none => ref.data

/-- Modelled from the spec: `Denormalize(ref) -> shortName` strips any
project/collection/scope prefix and surrounding slashes, returning just the
trailing name segment; it is a pure string operation that never fails, and
empty input yields empty output (`DenormalizeResourceName` in
`command_base.py`, pinned by `testDenormalizeResourceName`). -/
def denormalizeResourceName (ref : String) : String :=
  String.mk ((segsList ref.data).getLast?.getD [])

/-- The scope segment of a canonical URL: `zones/<z>`, `regions/<r>`,
`global`, or nothing.  A composite scope such as `zones/zone-a` (as passed
by the `NormalizePerZoneResourceName` wrapper) contributes its non-empty
path segments. -/
def scopeSegs : Option String → List (List Char)
  | some s => segsList s.data
  | none => []

/-- Segment-level normalization: if the reference is already a path whose
first segment is `projects`, the embedded project/scope/collection are
honored verbatim; otherwise the canonical
`projects/<project>/[<scope>/]<collection>/<name>` path is built from the
caller-supplied parameters, the name being the trailing segment of the
reference. -/
def normalizeSegs (project : String) (scope : Option String)
    (collection : String) (parts : List (List Char)) : List (List Char) :=
  if parts.head? = some "projects".data then parts
  else "projects".data :: project.data ::
    (scopeSegs scope ++ [collection.data, (parts.getLast?.getD [])])

/-- Modelled from the spec: `Normalize(project, scope, collectionKind, ref)
-> canonicalURL` builds a canonical absolute URL
`<api-base>/<version>/projects/<project>/[<scope>/]<collection>/<name>`;
a reference already containing a `projects/<P>/...` path keeps its embedded
project, scope and collection (`NormalizeResourceName` in
`command_base.py`, pinned by `_DoTestNormalizeResourceName`). -/
def normalizeResourceName (version project : String) (scope : Option String)
    (collection : String) (ref : String) : String :=
  String.mk (apiBaseCh version ++
    joinCh (normalizeSegs project scope collection (segsList (stripBase version ref))))

/-- Recognize the scope part of a self-link path: `global`,
`zones/<name>`, or `regions/<name>`. -/
def scopeOfSegs : List (List Char) → Option (String × String)
  | [] => none
  | k :: rest =>
    if k = "global".data then some ("global", "")
    else if k = "zones".data then
      match rest with
      | n :: _ => some ("zones", String.mk n)
      | [] => none
    else if k = "regions".data then
      match rest with
      | n :: _ => some ("regions", String.mk n)
      | [] => none
    else none

/-- Modelled from the spec: `ExtractScope(url) -> (scopeKind, scopeName)`
parses a URL/path to recover `("zones", z)`, `("regions", r)`,
`("global", "")`, or `none` when the shape does not match any recognized
scoped pattern; it never fails on malformed input
(`_GetScopeFromSelfLink` in `command_base.py`, pinned by
`_DoTestGetScopeFromSelfLink`). -/
def extractScope (url : String) : Option (String × String) :=
  match segsList url.data with
  | s1 :: _ :: s3 :: _ :: s5 :: _ :: rest =>
    if s1 = "https:".data ∧ s3 = "compute".data ∧ s5 = "projects".data then
      scopeOfSegs rest
    else none
  | _ => none

/-- A well-formed path segment: non-empty and free of `'/'`. -/
def WFseg (s : String) : Prop := s.data ≠ [] ∧ '/' ∉ s.data

instance (s : String) : Decidable (WFseg s) :=
  inferInstanceAs (Decidable (s.data ≠ [] ∧ '/' ∉ s.data))

/-- Errors surfaced by the command framework (`CommandError` in
`gcutil_errors`): unusable project value, or zero scope candidates. -/
inductive CommandError where
  | missingProject : CommandError
  | uppercaseProject : CommandError
  | malformedProject : CommandError
  | noCandidates : CommandError
deriving DecidableEq

deriving instance DecidableEq for Except

/-- Remove surrounding `'/'` characters. -/
def stripSlashes (cs : List Char) : List Char :=
  ((cs.dropWhile (fun c => c = '/')).reverse.dropWhile (fun c => c = '/')).reverse

/-- The project value after stripping surrounding slashes and one leading
`projects/` qualifier. -/
def projectBody (cs : List Char) : List Char :=
  match dropPrefixCh "projects/".data (stripSlashes cs) with
  | some rest => rest
  | none => stripSlashes cs

/-- Modelled from the spec: `DenormalizeProjectName` reduces the effective
project flag value (the `--project` flag, with `--project_id` as obsolete
fallback) to a bare lowercase project name, raising `CommandError` when no
value is set, when the value names an uppercase project, or when after
stripping surrounding slashes and a leading `projects/` the value is not a
single path segment (`command_base.py`, pinned by
`testDenormalizeProjectName`). -/
def denormalizeProjectName (project : Option String) : Except CommandError String :=
  match project with
  | none => Except.error CommandError.missingProject
  | some p =>
    if p.data = [] then Except.error CommandError.missingProject
    else if p.data.any (fun c => c.isUpper) then Except.error CommandError.uppercaseProject
    else if projectBody p.data = [] then Except.error CommandError.missingProject
    else if '/' ∈ projectBody p.data then Except.error CommandError.malformedProject
    else Except.ok (String.mk (projectBody p.data))

/-- Modelled from the spec: the Parallel Batch Executor
(`ExecuteRequests` in `command_base.py`, spec section 4.4).  Each request
either succeeds with a value or raises; successes are appended to
`results` preserving the original submission order among successes, raised
errors are appended to `exceptions`, and a request's failure never cancels
or blocks sibling requests.  The worker-pool concurrency is not
observable in the collected outcome, which the spec fixes to this
deterministic pair. -/
def ExecuteRequests {ε α : Type} (requests : List (Except ε α)) : List α × List ε :=
  (requests.filterMap (fun r => match r with
      | Except.ok a => some a
      | Except.error _ => none),
   requests.filterMap (fun r => match r with
      | Except.ok _ => none
      | Except.error e => some e))

/-- Whether a request raised. -/
def isFailure {ε α : Type} : Except ε α → Bool
  | Except.ok _ => false
  | Except.error _ => true

/-- The result of one paginated list call at one scope (`ScopedList` in the
data model): a sequence of items plus an optional continuation token and an
optional non-fatal warning such as `UNREACHABLE` or `NO_RESULTS_ON_PAGE`. -/
structure ScopedList (α : Type) where
  items : List α
  warning : Option String
  nextPageToken : Option String

/-- Modelled from the spec: the pagination loop of the Aggregated Lister
(spec section 4.3): repeatedly issue the list call, carrying the
continuation token returned by the previous page, until the server returns
no further token; each page's items are appended in the order received.
The returned pair is the concatenated items and the trace of tokens carried
by the issued calls (the first call carries no token).  The fuel only
bounds the number of round trips: any interaction that terminates at all is
reproduced exactly with sufficient fuel. -/
def paginateAux {α : Type} (fetch : Option String → ScopedList α) :
    Nat → Option String → List α × List (Option String)
  | 0, _ => ([], [])
  | fuel + 1, tok =>
    match (fetch tok).nextPageToken with
    | none => ((fetch tok).items, [tok])
    | some t =>
      let r := paginateAux fetch fuel (some t)
      ((fetch tok).items ++ r.1, tok :: r.2)

/-- A concrete two-page server used to witness the pagination theorem. -/
def twoPageFetch : Option String → ScopedList String
  | none => ScopedList.mk ["a1", "a2"] none (some "page2")
  | some _ => ScopedList.mk ["b1"] (some "NO_RESULTS_ON_PAGE") none

/-- Lexicographic comparison of character lists by code point, matching the
string ordering used to sort scope bucket names. -/
def lexLeCh : List Char → List Char → Bool
  | [], _ => true
  | _ :: _, [] => false
  | a :: as, b :: bs => if a = b then lexLeCh as bs else decide (a < b)

/-- Lexicographic string comparison by code point. -/
def lexLe (a b : String) : Bool := lexLeCh a.data b.data

/-- Scope bucket names in the fixed merge order: sorted by name. -/
def sortNames (names : List String) : List String :=
  List.insertionSort (fun a b => lexLe a b = true) names

/-- Modelled from the spec: the merge step of the Aggregated Lister (spec
section 4.3) in its fan-out form.  Every applicable zone bucket, region
bucket, and the optional global bucket is fetched through its own
pagination loop, and the contributions are concatenated in the fixed order
zones (name-sorted), then regions (name-sorted), then global.  A bucket
whose page carries only a non-fatal warning simply contributes its empty
item list; its warning never blocks the other buckets. -/
def aggregatedHandle {α : Type} (zoneNames regionNames : List String)
    (hasGlobal : Bool)
    (fetchZone fetchRegion : String → Option String → ScopedList α)
    (fetchGlobal : Option String → ScopedList α) (fuel : Nat) : List α :=
  ((sortNames zoneNames).map (fun z => (paginateAux (fetchZone z) fuel none).1)).flatten
    ++ ((sortNames regionNames).map (fun r => (paginateAux (fetchRegion r) fuel none).1)).flatten
    ++ (if hasGlobal then (paginateAux fetchGlobal fuel none).1 else [])

/-- Concrete zone servers for the aggregated-listing witness: zones `a` and
`b` answer with one object each, zone `c` answers with only an
`UNREACHABLE` warning, as in the aggregated listing unit test. -/
def witnessZoneFetch : String → Option String → ScopedList String :=
  fun z _ =>
    if z = "a" then ScopedList.mk ["object-a"] none none
    else if z = "b" then ScopedList.mk ["object-b"] none none
    else ScopedList.mk [] (some "UNREACHABLE") none

/-- Concrete region servers for the aggregated-listing witness. -/
def witnessRegionFetch : String → Option String → ScopedList String :=
  fun r _ =>
    if r = "region-r" then ScopedList.mk ["object-r1", "object-r2"] none none
    else ScopedList.mk ["object-s"] none none

/-- Concrete global server for the aggregated-listing witness. -/
def witnessGlobalFetch : Option String → ScopedList String :=
  fun _ => ScopedList.mk ["object-global"] none none

/-- Status of a server-side operation: `PENDING → RUNNING → DONE`, with
`DONE` terminal (spec section 4.5). -/
inductive OpStatus where
  | PENDING : OpStatus
  | RUNNING : OpStatus
  | DONE : OpStatus
deriving DecidableEq

/-- Terminal states stop polling immediately. -/
def isTerminal : OpStatus → Bool
  | OpStatus.DONE => true
  | _ => false

/-- An operation handle or plain resource as seen by the poller: whether it
is an operation at all (its `kind`), its name, and its status. -/
structure Operation where
  name : String
  isOperation : Bool
  status : OpStatus
deriving DecidableEq

/-- Modelled from the spec: the sleep-then-poll loop of the Operation
Poller (spec section 4.5): while the state is non-terminal and the elapsed
time is below the max wait time, sleep one interval and issue one `get`
poll; `get k` is the state the server reports to the `(k+1)`-th poll.  The
loop carries the elapsed time `t` and the poll count; the fuel argument
only bounds the iteration count and is passed as `maxWait + 1` by
`WaitForOperation`, enough for every sleep interval of at least one
second. -/
def waitPoll (get : Nat → Operation) (maxWait sleep : Nat) :
    Nat → Nat → Nat → Operation → Operation × Nat
  | 0, _, polls, op => (op, polls)
  | fuel + 1, t, polls, op =>
    if isTerminal op.status then (op, polls)
    else if maxWait ≤ t then (op, polls)
    else waitPoll get maxWait sleep fuel (t + sleep) (polls + 1) (get polls)

/-- Modelled from the spec: `WaitForOperation(maxWait, sleep, result)`
(spec section 4.5, pinned by `testWaitForOperation`): a
synchronously-complete plain resource is returned immediately without any
poll; an operation is polled until terminal state or timeout, returning
the last fetched state together with the number of `get` calls issued.
Timeout is not an error: the still-pending state is returned unchanged. -/
def WaitForOperation (get : Nat → Operation) (maxWait sleep : Nat)
    (op : Operation) : Operation × Nat :=
  if op.isOperation then waitPoll get maxWait sleep (maxWait + 1) 0 0 op
  else (op, 0)

/-- The operation that never leaves `PENDING`, as in the
`operation-stuck` case of `testWaitForOperation`. -/
def stuckOperation : Operation :=
  Operation.mk "operation-stuck" true OpStatus.PENDING

/-- The numeric suffix of an API version token (e.g. 15 for `v1beta15`):
the trailing run of digits read as a decimal number. -/
def versionSuffixNum (v : String) : Nat :=
  ((v.data.reverse.takeWhile (fun c => c.isDigit)).reverse).foldl
    (fun n c => n * 10 + (c.toNat - '0'.toNat)) 0

/-- The API version tokens appearing in the source snapshot, in ascending
release order: the version-comparison unit test uses `v1beta2`..`v1beta6`
and the commands use `v1beta14`/`v1beta15`. -/
def supportedVersions : List String :=
  ["v1beta2", "v1beta3", "v1beta4", "v1beta5", "v1beta6", "v1beta14", "v1beta15"]

/-- Modelled from the spec: `ApiVersion` is an ordered token, the order
being the position in the ordered supported-version list; the
at-least-version check `_IsUsingAtLeastApiVersion` answers whether the
active version's position is at least the queried version's position
(pinned by `testVersionComparison`). -/
def isUsingAtLeastApiVersion (current target : String) : Bool :=
  supportedVersions.indexOf target ≤ supportedVersions.indexOf current

/-- Modelled from the spec: scope resolution for a collection supporting
exactly one scope kind (spec section 4.2, steps (1)-(2), pinned by
`testGetZone` and `testPromptForChoicesWithOneDeprecatedItem`): a present
scope flag wins; otherwise the candidates for the scope kind are listed —
zero candidates is a `CommandError`, exactly one candidate is auto-selected
without prompting, and only more than one blocks on the interactive
numbered choice `ask`.  The returned Boolean records whether the
interactive prompt was shown. -/
def resolveScope (flagValue : Option String) (candidates : List String)
    (ask : List String → Nat) : Except CommandError (String × Bool) :=
  match flagValue with
  | some z => Except.ok (z, false)
  | none =>
    match candidates with
    | [] => Except.error CommandError.noCandidates
    | [c] => Except.ok (c, false)
    | cs => Except.ok (cs.getD (ask cs) "", true)

theorem splitCh_nil : splitCh [] = [[]] := rfl

theorem splitCh_cons_slash (cs : List Char) :
    splitCh ('/' :: cs) = [] :: splitCh cs := by
  simp [splitCh, splitChP]

theorem splitCh_cons_ne (c : Char) (cs : List Char) (h : c ≠ '/') :
    splitCh (c :: cs) = (c :: (splitChP cs).1) :: (splitChP cs).2 := by
  simp [splitCh, splitChP, h]

theorem splitChP_append_slash (xs ys : List Char) :
    splitChP (xs ++ '/' :: ys) = ((splitChP xs).1, (splitChP xs).2 ++ splitCh ys) := by
  induction xs with
  | nil => simp [splitChP, splitCh]
  | cons c cs ih =>
    by_cases h : c = '/'
    · subst h; simp [splitChP, ih]
    · simp [splitChP, ih, h]

theorem splitCh_append_slash (xs ys : List Char) :
    splitCh (xs ++ '/' :: ys) = splitCh xs ++ splitCh ys := by
  simp [splitCh, splitChP_append_slash]

theorem splitChP_noslash (cs : List Char) (h : '/' ∉ cs) :
    splitChP cs = (cs, []) := by
  induction cs with
  | nil => rfl
  | cons c cs ih =>
    have hc : c ≠ '/' := fun hc => h (hc ▸ List.mem_cons_self c cs)
    have hcs : '/' ∉ cs := fun hm => h (List.mem_cons_of_mem c hm)
    simp [splitChP, ih hcs, hc]

theorem splitCh_noslash (cs : List Char) (h : '/' ∉ cs) :
    splitCh cs = [cs] := by
  simp [splitCh, splitChP_noslash cs h]

theorem noslash_of_mem_splitCh {cs : List Char} {s : List Char}
    (hs : s ∈ splitCh cs) : '/' ∉ s := by
  induction cs generalizing s with
  | nil =>
    simp [splitCh_nil] at hs
    subst hs; simp
  | cons c cs ih =>
    by_cases h : c = '/'
    · subst h
      rw [splitCh_cons_slash] at hs
      rcases List.mem_cons.mp hs with h1 | h2
      · subst h1; simp
      · exact ih h2
    · rw [splitCh_cons_ne c cs h] at hs
      rcases List.mem_cons.mp hs with h1 | h2
      · subst h1
        intro hmem
        rcases List.mem_cons.mp hmem with h3 | h4
        · exact h h3.symm
        · exact ih (show (splitChP cs).1 ∈ splitCh cs from List.mem_cons_self _ _) h4
      · exact ih (show s ∈ splitCh cs from List.mem_cons_of_mem _ h2)

theorem segsList_append_slash (xs ys : List Char) :
    segsList (xs ++ '/' :: ys) = segsList xs ++ segsList ys := by
  simp [segsList, splitCh_append_slash, List.filter_append]

theorem segsList_noslash (cs : List Char) (h : '/' ∉ cs) (hne : cs ≠ []) :
    segsList cs = [cs] := by
  unfold segsList
  rw [splitCh_noslash cs h]
  simp [List.filter, hne]

theorem segsList_nil : segsList [] = [] := rfl

theorem mem_segsList_wf {cs s : List Char} (hs : s ∈ segsList cs) :
    s ≠ [] ∧ '/' ∉ s := by
  have h1 : s ∈ splitCh cs ∧ s ≠ [] := by
    have := List.mem_filter.mp hs
    exact ⟨this.1, by simpa using this.2⟩
  exact ⟨h1.2, noslash_of_mem_splitCh h1.1⟩

theorem segsList_joinCh (L : List (List Char))
    (h : ∀ s ∈ L, s ≠ [] ∧ '/' ∉ s) : segsList (joinCh L) = L := by
  induction L with
  | nil => simp [joinCh, segsList_nil]
  | cons s ss ih =>
    cases ss with
    | nil =>
      have hs := h s (List.mem_cons_self s [])
      simp [joinCh, segsList_noslash s hs.2 hs.1]
    | cons t ts =>
      have hs := h s (List.mem_cons_self s (t :: ts))
      have hrest : ∀ u ∈ t :: ts, u ≠ [] ∧ '/' ∉ u :=
        fun u hu => h u (List.mem_cons_of_mem s hu)
      show segsList (s ++ '/' :: joinCh (t :: ts)) = s :: t :: ts
      rw [segsList_append_slash, segsList_noslash s hs.2 hs.1, ih hrest]
      simp

theorem dropPrefixCh_self_append (p r : List Char) :
    dropPrefixCh p (p ++ r) = some r := by
  induction p with
  | nil => rfl
  | cons c cs ih => simp [dropPrefixCh, ih]

theorem eq_append_of_dropPrefixCh {p s r : List Char}
    (h : dropPrefixCh p s = some r) : s = p ++ r := by
  induction p generalizing s with
  | nil => simp [dropPrefixCh] at h; simp [h]
  | cons c cs ih =>
    cases s with
    | nil => simp [dropPrefixCh] at h
    | cons d ds =>
      by_cases hc : c = d
      · subst hc
        simp [dropPrefixCh] at h
        simpa using ih h
      · simp [dropPrefixCh, hc] at h

example : denormalizeResourceName "projects/google/machineTypes/dual-cpu" = "dual-cpu" := by decide
example : denormalizeResourceName "//projects/google/machineTypes/dual-cpu//" = "dual-cpu" := by decide
example : denormalizeResourceName "dual-cpu" = "dual-cpu" := by decide
example : denormalizeResourceName "" = "" := by decide

example :
    normalizeResourceName "v1beta15" "google" none "machineTypes" "dual-cpu" =
      "https://www.googleapis.com/compute/v1beta15/projects/google/machineTypes/dual-cpu" := by
  decide

example :
    normalizeResourceName "v1beta15" "my-project" none "kernels" "projects/google/kernels/default" =
      "https://www.googleapis.com/compute/v1beta15/projects/google/kernels/default" := by
  decide

example :
    normalizeResourceName "v1beta14" "my-project" (some "zones/zone-a") "objects" "foo-bar" =
      "https://www.googleapis.com/compute/v1beta14/projects/my-project/zones/zone-a/objects/foo-bar" := by
  decide

example :
    extractScope "https://www.googleapis.com/compute/v1beta14/projects/my-project/zones/zone2" =
      some ("zones", "zone2") := by decide

example :
    extractScope "https://www.googleapis.com/compute/v1beta14/projects/global/networks/network" =
      none := by decide

example :
    extractScope "https://www.googleapis.com/compute/v1beta14/projects/my-project/global/networks/net" =
      some ("global", "") := by decide

example : extractScope "https://www.googleapis.com/" = none := by decide

theorem string_mk_data (l : List Char) : (String.mk l).data = l := rfl

theorem normalizeSegs_head (project : String) (scope : Option String)
    (collection : String) (parts : List (List Char)) :
    (normalizeSegs project scope collection parts).head? = some "projects".data := by
  unfold normalizeSegs
  split
  · assumption
  · rfl

theorem normalizeSegs_ne_nil (project : String) (scope : Option String)
    (collection : String) (parts : List (List Char)) :
    normalizeSegs project scope collection parts ≠ [] := by
  intro h
  have := normalizeSegs_head project scope collection parts
  rw [h] at this
  simp at this

theorem normalizeSegs_wf (project : String) (scope : Option String)
    (collection : String) (parts : List (List Char))
    (hp : WFseg project) (hc : WFseg collection)
    (hparts : ∀ s ∈ parts, s ≠ [] ∧ '/' ∉ s) (hne : parts ≠ []) :
    ∀ s ∈ normalizeSegs project scope collection parts, s ≠ [] ∧ '/' ∉ s := by
  unfold normalizeSegs
  split
  · exact hparts
  · intro s hs
    rcases List.mem_cons.mp hs with h1 | hs
    · subst h1; exact ⟨by decide, by decide⟩
    rcases List.mem_cons.mp hs with h1 | hs
    · subst h1; exact hp
    rcases List.mem_append.mp hs with h1 | h2
    · cases scope with
      | none => simp [scopeSegs] at h1
      | some sc => exact mem_segsList_wf (by simpa [scopeSegs] using h1)
    · rcases List.mem_cons.mp h2 with h1 | h2
      · subst h1; exact hc
      · rcases List.mem_cons.mp h2 with h1 | h2
        · subst h1
          rw [List.getLast?_eq_getLast_of_ne_nil hne]
          exact hparts _ (List.getLast_mem hne)
        · simp at h2

/-- Normalizing a string that is already a canonical URL made of well-formed
segments starting with `projects` returns it unchanged. -/
theorem normalize_of_canonical (version project : String) (scope : Option String)
    (collection : String) (segs : List (List Char))
    (hhead : segs.head? = some "projects".data)
    (hwf : ∀ s ∈ segs, s ≠ [] ∧ '/' ∉ s) :
    normalizeResourceName version project scope collection
      (String.mk (apiBaseCh version ++ joinCh segs)) =
      String.mk (apiBaseCh version ++ joinCh segs) := by
  unfold normalizeResourceName stripBase
  rw [string_mk_data, dropPrefixCh_self_append, segsList_joinCh segs hwf]
  unfold normalizeSegs
  rw [if_pos hhead]

theorem segsList_apiBase_append (version : String) (cs : List Char) :
    segsList (apiBaseCh version ++ cs) =
      segsList (apiRoot ++ version.data) ++ segsList cs := by
  have h : apiBaseCh version ++ cs = (apiRoot ++ version.data) ++ '/' :: cs := by
    simp [apiBaseCh]
  rw [h, segsList_append_slash]

/-- The short name of a freshly normalized URL is the last well-formed
segment of its canonical path. -/
theorem denormalize_of_canonical (version : String) (segs : List (List Char))
    (hwf : ∀ s ∈ segs, s ≠ [] ∧ '/' ∉ s) (hne : segs ≠ []) :
    denormalizeResourceName (String.mk (apiBaseCh version ++ joinCh segs)) =
      String.mk (segs.getLast?.getD []) := by
  unfold denormalizeResourceName
  rw [string_mk_data, segsList_apiBase_append, segsList_joinCh segs hwf,
    List.getLast?_append_of_ne_nil _ hne]

theorem slash_mem_apiBase (version : String) : '/' ∈ apiBaseCh version := by
  unfold apiBaseCh apiRoot
  refine List.mem_append.mpr (Or.inl (List.mem_append.mpr (Or.inl ?_)))
  decide

theorem stripBase_of_noslash (version : String) (cs : List Char)
    (h : '/' ∉ cs) : stripBase version (String.mk cs) = cs := by
  unfold stripBase
  rw [string_mk_data]
  cases hd : dropPrefixCh (apiBaseCh version) cs with
  | none => rfl
  | some r =>
    exfalso
    apply h
    rw [eq_append_of_dropPrefixCh hd]
    exact List.mem_append.mpr (Or.inl (slash_mem_apiBase version))

theorem normalizeSegs_else (project : String) (scope : Option String)
    (collection : String) (parts : List (List Char))
    (h : parts.head? ≠ some "projects".data) :
    normalizeSegs project scope collection parts =
      "projects".data :: project.data ::
        (scopeSegs scope ++ [collection.data, parts.getLast?.getD []]) := by
  unfold normalizeSegs
  rw [if_neg h]

theorem normalizeSegs_getLast_else (project : String) (scope : Option String)
    (collection : String) (parts : List (List Char))
    (h : parts.head? ≠ some "projects".data) :
    (normalizeSegs project scope collection parts).getLast? =
      some (parts.getLast?.getD []) := by
  rw [normalizeSegs_else project scope collection parts h]
  have hsplit : "projects".data :: project.data ::
      (scopeSegs scope ++ [collection.data, parts.getLast?.getD []]) =
      ("projects".data :: project.data :: (scopeSegs scope ++ [collection.data])) ++
        (parts.getLast?.getD []) :: [] := by simp
  rw [hsplit, List.getLast?_append_cons]
  rfl

theorem normalize_via_parts (version project : String) (scope : Option String)
    (collection : String) (ref : String) :
    normalizeResourceName version project scope collection ref =
      String.mk (apiBaseCh version ++
        joinCh (normalizeSegs project scope collection (segsList (stripBase version ref)))) := rfl

/-- C4 (amended). Normalization is idempotent on its own outputs:
re-normalizing an already-canonical reference yields the same value, for
every reference with at least one path segment and well-formed
caller-supplied project and collection.  The full round trip
`Normalize(Denormalize(Normalize(x))) = Normalize(x)` additionally holds
whenever the reference is a bare name, i.e. carries no embedded
`projects/...` qualification (and its trailing segment is not the literal
`projects`); for references embedding a project different from the
caller-supplied one the round trip fails, see the counterexample. -/
theorem claim_C4_theorem (version project : String) (scope : Option String)
    (collection : String) (ref : String)
    (hp : WFseg project) (hc : WFseg collection)
    (hne : segsList (stripBase version ref) ≠ []) :
    (normalizeResourceName version project scope collection
        (normalizeResourceName version project scope collection ref) =
      normalizeResourceName version project scope collection ref) ∧
    ((segsList (stripBase version ref)).head? ≠ some "projects".data →
     (segsList (stripBase version ref)).getLast? ≠ some "projects".data →
     normalizeResourceName version project scope collection
        (denormalizeResourceName
          (normalizeResourceName version project scope collection ref)) =
      normalizeResourceName version project scope collection ref) := by
  have hparts : ∀ s ∈ segsList (stripBase version ref), s ≠ [] ∧ '/' ∉ s :=
    fun _ hs => mem_segsList_wf hs
  have hwf := normalizeSegs_wf project scope collection
    (segsList (stripBase version ref)) hp hc hparts hne
  constructor
  · rw [normalize_via_parts version project scope collection ref]
    exact normalize_of_canonical version project scope collection _
      (normalizeSegs_head project scope collection _) hwf
  · intro hhead hlast
    have hglast : (segsList (stripBase version ref)).getLast? =
        some ((segsList (stripBase version ref)).getLast hne) :=
      List.getLast?_eq_getLast_of_ne_nil hne
    have hnmwf : (segsList (stripBase version ref)).getLast hne ≠ [] ∧
        '/' ∉ (segsList (stripBase version ref)).getLast hne :=
      hparts _ (List.getLast_mem hne)
    have hnmne : (segsList (stripBase version ref)).getLast hne ≠ "projects".data := by
      intro h
      exact hlast (by rw [hglast, h])
    have hD : denormalizeResourceName
        (normalizeResourceName version project scope collection ref) =
        String.mk ((segsList (stripBase version ref)).getLast hne) := by
      rw [normalize_via_parts version project scope collection ref,
        denormalize_of_canonical version _ hwf
          (normalizeSegs_ne_nil project scope collection _),
        normalizeSegs_getLast_else project scope collection _ hhead]
      simp [hglast]
    rw [hD, normalize_via_parts version project scope collection
      (String.mk ((segsList (stripBase version ref)).getLast hne)),
      normalize_via_parts version project scope collection ref,
      stripBase_of_noslash version _ hnmwf.2,
      segsList_noslash _ hnmwf.2 hnmwf.1,
      normalizeSegs_else project scope collection _ (by simp [hnmne]),
      normalizeSegs_else project scope collection _ hhead]
    simp [hglast]

/-- C4 (counterexample to the claim as stated). For the reference
`projects/google/kernels/default` — taken verbatim from
`_DoTestNormalizeResourceName` — normalized for collection `kernels` with
caller project `my-project`, the embedded project `google` is honored, the
denormalized short name is `default`, and re-normalizing that bare name
lands under the caller project `my-project`, so
`Normalize(Denormalize(Normalize(x)))` differs from `Normalize(x)`. -/
theorem claim_C4_counterexample :
    normalizeResourceName "v1beta15" "my-project" none "kernels"
        "projects/google/kernels/default" =
      "https://www.googleapis.com/compute/v1beta15/projects/google/kernels/default" ∧
    denormalizeResourceName
        (normalizeResourceName "v1beta15" "my-project" none "kernels"
          "projects/google/kernels/default") = "default" ∧
    normalizeResourceName "v1beta15" "my-project" none "kernels"
        (denormalizeResourceName
          (normalizeResourceName "v1beta15" "my-project" none "kernels"
            "projects/google/kernels/default")) =
      "https://www.googleapis.com/compute/v1beta15/projects/my-project/kernels/default" ∧
    normalizeResourceName "v1beta15" "my-project" none "kernels"
        (denormalizeResourceName
          (normalizeResourceName "v1beta15" "my-project" none "kernels"
            "projects/google/kernels/default")) ≠
      normalizeResourceName "v1beta15" "my-project" none "kernels"
        "projects/google/kernels/default" := by
  refine ⟨by decide, by decide, by decide, by decide⟩

/-- C4 witness: the amended idempotence theorem applied at the concrete
bare-name reference `dual-cpu` of the normalization unit test. -/
theorem claim_C4_witness :
    (WFseg "google" ∧ WFseg "machineTypes" ∧
      segsList (stripBase "v1beta15" "dual-cpu") ≠ []) ∧
    normalizeResourceName "v1beta15" "google" none "machineTypes"
        (normalizeResourceName "v1beta15" "google" none "machineTypes" "dual-cpu") =
      normalizeResourceName "v1beta15" "google" none "machineTypes" "dual-cpu" ∧
    normalizeResourceName "v1beta15" "google" none "machineTypes"
        (denormalizeResourceName
          (normalizeResourceName "v1beta15" "google" none "machineTypes" "dual-cpu")) =
      normalizeResourceName "v1beta15" "google" none "machineTypes" "dual-cpu" :=
  have h := claim_C4_theorem "v1beta15" "google" none "machineTypes" "dual-cpu"
    (by decide) (by decide) (by decide)
  ⟨⟨by decide, by decide, by decide⟩, h.1, h.2 (by decide) (by decide)⟩

/-- C5. The self-link scope parser is total and only ever produces one of
the four documented answers: for every input string `extractScope` returns
without failing, yielding `("zones", z)`, `("regions", r)`,
`("global", "")`, or `none`; in particular every malformed or unrecognized
URL yields `none`. -/
theorem claim_C5_theorem (url : String) :
    extractScope url = none ∨
    (∃ z, extractScope url = some ("zones", z)) ∨
    (∃ r, extractScope url = some ("regions", r)) ∨
    extractScope url = some ("global", "") := by
  unfold extractScope
  cases hs : segsList url.data with
  | nil => exact Or.inl rfl
  | cons s1 t1 =>
    cases t1 with
    | nil => exact Or.inl rfl
    | cons s2 t2 =>
      cases t2 with
      | nil => exact Or.inl rfl
      | cons s3 t3 =>
        cases t3 with
        | nil => exact Or.inl rfl
        | cons s4 t4 =>
          cases t4 with
          | nil => exact Or.inl rfl
          | cons s5 t5 =>
            cases t5 with
            | nil => exact Or.inl rfl
            | cons s6 rest =>
              dsimp only
              by_cases hb : s1 = "https:".data ∧ s3 = "compute".data ∧ s5 = "projects".data
              · rw [if_pos hb]
                cases rest with
                | nil => exact Or.inl rfl
                | cons k krest =>
                  unfold scopeOfSegs
                  dsimp only
                  by_cases hg : k = "global".data
                  · rw [if_pos hg]
                    exact Or.inr (Or.inr (Or.inr rfl))
                  · rw [if_neg hg]
                    by_cases hz : k = "zones".data
                    · rw [if_pos hz]
                      cases krest with
                      | nil => exact Or.inl rfl
                      | cons n _ => exact Or.inr (Or.inl ⟨String.mk n, rfl⟩)
                    · rw [if_neg hz]
                      by_cases hr : k = "regions".data
                      · rw [if_pos hr]
                        cases krest with
                        | nil => exact Or.inl rfl
                        | cons n _ => exact Or.inr (Or.inr (Or.inl ⟨String.mk n, rfl⟩))
                      · rw [if_neg hr]
                        exact Or.inl rfl
              · rw [if_neg hb]
                exact Or.inl rfl

/-- C6. When the reference already contains an embedded
`projects/<P>/...` path, the embedded project, scope and collection win
over the caller-supplied ones: normalizing
`projects/acme/zones/us-c/disks/d1` for collection `disks` with caller
project `other` yields the canonical URL under project `acme` and zone
`us-c`, whose scope parses back as `("zones", "us-c")`. -/
theorem claim_C6_theorem :
    normalizeResourceName "v1beta15" "other" none "disks"
        "projects/acme/zones/us-c/disks/d1" =
      "https://www.googleapis.com/compute/v1beta15/projects/acme/zones/us-c/disks/d1" ∧
    extractScope
        (normalizeResourceName "v1beta15" "other" none "disks"
          "projects/acme/zones/us-c/disks/d1") = some ("zones", "us-c") := by
  refine ⟨by decide, by decide⟩

example : denormalizeProjectName (some "projects/google") = Except.ok "google" := by decide
example : denormalizeProjectName (some "/google/") = Except.ok "google" := by decide
example : denormalizeProjectName (some "/projects/google/") = Except.ok "google" := by decide
example : denormalizeProjectName (some "project_collection/google") =
    Except.error CommandError.malformedProject := by decide
example : denormalizeProjectName (some "MyUppercaseProject-1") =
    Except.error CommandError.uppercaseProject := by decide
example : denormalizeProjectName none = Except.error CommandError.missingProject := by decide

theorem dropWhile_slash_id (cs : List Char)
    (h : ∀ c ∈ cs.head?, ¬(c = '/')) :
    cs.dropWhile (fun c => c = '/') = cs := by
  cases cs with
  | nil => rfl
  | cons c cs =>
    rw [List.dropWhile_cons]
    simp [h c rfl]

theorem stripSlashes_id (cs : List Char)
    (h1 : ∀ c ∈ cs.head?, ¬(c = '/'))
    (h2 : ∀ c ∈ cs.getLast?, ¬(c = '/')) :
    stripSlashes cs = cs := by
  unfold stripSlashes
  rw [dropWhile_slash_id cs h1,
    dropWhile_slash_id cs.reverse (by rw [List.head?_reverse]; exact h2),
    List.reverse_reverse]

theorem stripSlashes_wrap (cs : List Char) (hne : cs ≠ [])
    (h1 : ∀ c ∈ cs.head?, ¬(c = '/'))
    (h2 : ∀ c ∈ cs.getLast?, ¬(c = '/')) :
    stripSlashes ('/' :: (cs ++ ['/'])) = cs := by
  unfold stripSlashes
  have hd : ('/' :: (cs ++ ['/'])).dropWhile (fun c => c = '/') = cs ++ ['/'] := by
    show (cs ++ ['/']).dropWhile (fun c => c = '/') = cs ++ ['/']
    apply dropWhile_slash_id
    intro c hc
    cases cs with
    | nil => exact absurd rfl hne
    | cons a as =>
      simp only [List.cons_append, List.head?_cons, Option.mem_def,
        Option.some.injEq] at hc
      exact hc ▸ h1 a rfl
  rw [hd]
  have hrev : (cs ++ ['/']).reverse = '/' :: cs.reverse := by simp
  rw [hrev]
  have hd2 : ('/' :: cs.reverse).dropWhile (fun c => c = '/') = cs.reverse := by
    show cs.reverse.dropWhile (fun c => c = '/') = cs.reverse
    exact dropWhile_slash_id cs.reverse (by rw [List.head?_reverse]; exact h2)
  rw [hd2, List.reverse_reverse]

theorem mem_of_mem_stripSlashes {c : Char} {cs : List Char}
    (h : c ∈ stripSlashes cs) : c ∈ cs := by
  unfold stripSlashes at h
  rw [List.mem_reverse] at h
  have h2 := (List.dropWhile_sublist (fun c => c = '/')).mem h
  rw [List.mem_reverse] at h2
  exact (List.dropWhile_sublist (fun c => c = '/')).mem h2

theorem mem_of_mem_projectBody {c : Char} {cs : List Char}
    (h : c ∈ projectBody cs) : c ∈ cs := by
  unfold projectBody at h
  cases hd : dropPrefixCh "projects/".data (stripSlashes cs) with
  | none =>
    rw [hd] at h
    exact mem_of_mem_stripSlashes h
  | some rest =>
    rw [hd] at h
    have hmem : c ∈ stripSlashes cs := by
      rw [eq_append_of_dropPrefixCh hd]
      exact List.mem_append.mpr (Or.inr h)
    exact mem_of_mem_stripSlashes hmem

theorem noslash_head {cs : List Char} (h : '/' ∉ cs) :
    ∀ c ∈ cs.head?, ¬(c = '/') := by
  intro c hc he
  exact h (he ▸ List.mem_of_mem_head? hc)

theorem noslash_getLast {cs : List Char} (h : '/' ∉ cs) :
    ∀ c ∈ cs.getLast?, ¬(c = '/') := by
  intro c hc he
  obtain ⟨hne, rfl⟩ := List.mem_getLast?_eq_getLast hc
  exact h (he ▸ List.getLast_mem hne)

theorem projectBody_noslash (cs : List Char) (hns : '/' ∉ cs) :
    projectBody cs = cs := by
  unfold projectBody
  rw [stripSlashes_id cs (noslash_head hns) (noslash_getLast hns)]
  cases hd : dropPrefixCh "projects/".data cs with
  | none => rfl
  | some rest =>
    exfalso
    apply hns
    rw [eq_append_of_dropPrefixCh hd]
    exact List.mem_append.mpr (Or.inl (by decide))

theorem append_slash_inj {a : List Char} : ∀ {c : List Char} {b d : List Char},
    '/' ∉ a → '/' ∉ c → a ++ '/' :: b = c ++ '/' :: d → a = c ∧ b = d := by
  induction a with
  | nil =>
    intro c b d _ hc h
    cases c with
    | nil => simpa using h
    | cons x xs =>
      simp only [List.nil_append, List.cons_append, List.cons.injEq] at h
      exact absurd (h.1 ▸ List.mem_cons_self x xs) hc
  | cons y ys ih =>
    intro c b d ha hc h
    cases c with
    | nil =>
      simp only [List.nil_append, List.cons_append, List.cons.injEq] at h
      exact absurd (h.1 ▸ List.mem_cons_self y ys) ha
    | cons x xs =>
      simp only [List.cons_append, List.cons.injEq] at h
      obtain ⟨h1, h2⟩ := h
      have hys : '/' ∉ ys := fun hm => ha (List.mem_cons_of_mem _ hm)
      have hxs : '/' ∉ xs := fun hm => hc (List.mem_cons_of_mem _ hm)
      obtain ⟨e1, e2⟩ := ih hys hxs h2
      exact ⟨by rw [h1, e1], e2⟩

theorem dropPrefixCh_projects_none (cs : List Char) (hns : '/' ∉ cs) :
    dropPrefixCh "projects/".data cs = none := by
  cases hd : dropPrefixCh "projects/".data cs with
  | none => rfl
  | some r =>
    exfalso
    apply hns
    rw [eq_append_of_dropPrefixCh hd]
    exact List.mem_append.mpr (Or.inl (by decide))

theorem dropPrefixCh_projects_pre_none (pre name : List Char)
    (hpre : '/' ∉ pre) (hpne : pre ≠ "projects".data) :
    dropPrefixCh "projects/".data (pre ++ '/' :: name) = none := by
  cases hd : dropPrefixCh "projects/".data (pre ++ '/' :: name) with
  | none => rfl
  | some r =>
    exfalso
    have heq2 : pre ++ '/' :: name = "projects".data ++ '/' :: r := by
      have h := eq_append_of_dropPrefixCh hd
      rw [h]; rfl
    exact hpne (append_slash_inj hpre (by decide) heq2).1

theorem projectBody_projects (cs : List Char) (hne : cs ≠ []) (hns : '/' ∉ cs) :
    projectBody ("projects/".data ++ cs) = cs := by
  unfold projectBody
  have hstrip : stripSlashes ("projects/".data ++ cs) = "projects/".data ++ cs := by
    apply stripSlashes_id
    · intro c hc he
      have hh : ("projects/".data ++ cs).head? = some 'p' := rfl
      rw [hh] at hc
      simp only [Option.mem_def, Option.some.injEq] at hc
      exact absurd (hc ▸ he) (by decide)
    · intro c hc he
      rw [List.getLast?_append_of_ne_nil _ hne] at hc
      exact noslash_getLast hns c hc he
  rw [hstrip, dropPrefixCh_self_append]

theorem projectBody_wrap (cs : List Char) (hne : cs ≠ [])
    (h1 : ∀ c ∈ cs.head?, ¬(c = '/')) (h2 : ∀ c ∈ cs.getLast?, ¬(c = '/')) :
    projectBody ('/' :: (cs ++ ['/'])) =
      match dropPrefixCh "projects/".data cs with
      | some rest => rest
      | none => cs := by
  unfold projectBody
  rw [stripSlashes_wrap cs hne h1 h2]

theorem denormalizeProjectName_ok_mk (p : String)
    (h0 : p.data ≠ [])
    (h1 : p.data.any (fun c => c.isUpper) = false)
    (h2 : projectBody p.data ≠ [])
    (h3 : '/' ∉ projectBody p.data) :
    denormalizeProjectName (some p) = Except.ok (String.mk (projectBody p.data)) := by
  unfold denormalizeProjectName
  dsimp only
  rw [if_neg h0, if_neg (by simp [h1]), if_neg h2, if_neg h3]

theorem denormalizeProjectName_ok_of_body (p name : String)
    (h0 : p.data ≠ [])
    (h1 : p.data.any (fun c => c.isUpper) = false)
    (hbody : projectBody p.data = name.data) (hn : WFseg name) :
    denormalizeProjectName (some p) = Except.ok name := by
  rw [denormalizeProjectName_ok_mk p h0 h1
    (by rw [hbody]; exact hn.1) (by rw [hbody]; exact hn.2), hbody]

theorem string_data_inj {s t : String} (h : s.data = t.data) : s = t :=
  congrArg String.mk h

theorem ne_nil_of_head?_eq_some {l : List Char} {c : Char}
    (h : l.head? = some c) : l ≠ [] := by
  intro he
  rw [he] at h
  simp at h

theorem denormalizeProjectName_err_slash (p : String)
    (h0 : p.data ≠ []) (h3 : '/' ∈ projectBody p.data) :
    denormalizeProjectName (some p) = Except.error CommandError.uppercaseProject ∨
    denormalizeProjectName (some p) = Except.error CommandError.malformedProject := by
  unfold denormalizeProjectName
  dsimp only
  by_cases h1 : (p.data.any fun c => c.isUpper) = true
  · rw [if_neg h0, if_pos h1]
    exact Or.inl rfl
  · rw [if_neg h0, if_neg h1, if_neg (List.ne_nil_of_mem h3), if_pos h3]
    exact Or.inr rfl

/-- C10. `DenormalizeProjectName` raises `CommandError` exactly on unusable
input — no project value set at all, a qualified path whose first segment
is not `projects`, or a value containing uppercase characters — and
otherwise succeeds, stripping surrounding slashes and a leading
`projects/`, so that a second application leaves the value unchanged
(`DenormalizeResourceName`, by contrast, is a total function into
`String` and never fails). -/
theorem claim_C10_theorem (pre name : String)
    (hpre : WFseg pre) (hpne : pre ≠ "projects")
    (hn : WFseg name) (hnup : (name.data.any fun c => c.isUpper) = false) :
    denormalizeProjectName none = Except.error CommandError.missingProject ∧
    (∀ p : String, (p.data.any fun c => c.isUpper) = true →
      denormalizeProjectName (some p) = Except.error CommandError.uppercaseProject) ∧
    (denormalizeProjectName (some (pre ++ "/" ++ name)) =
        Except.error CommandError.uppercaseProject ∨
      denormalizeProjectName (some (pre ++ "/" ++ name)) =
        Except.error CommandError.malformedProject) ∧
    denormalizeProjectName (some name) = Except.ok name ∧
    denormalizeProjectName (some ("projects/" ++ name)) = Except.ok name ∧
    denormalizeProjectName (some ("/" ++ name ++ "/")) = Except.ok name ∧
    denormalizeProjectName (some ("/projects/" ++ name ++ "/")) = Except.ok name ∧
    (∀ p v : String, denormalizeProjectName (some p) = Except.ok v →
      denormalizeProjectName (some v) = Except.ok v) := by
  have hdata : (pre ++ "/" ++ name).data = pre.data ++ '/' :: name.data := by
    rw [String.data_append, String.data_append, List.append_assoc]
    rfl
  refine ⟨rfl, ?_, ?_, ?_, ?_, ?_, ?_, ?_⟩
  · -- uppercase values always raise
    intro p h
    have h0 : p.data ≠ [] := by
      obtain ⟨c, hc, _⟩ := List.any_eq_true.mp h
      exact List.ne_nil_of_mem hc
    unfold denormalizeProjectName
    dsimp only
    rw [if_neg h0, if_pos h]
  · -- a qualified path whose first segment is not projects raises
    have h0 : (pre ++ "/" ++ name).data ≠ [] := by
      rw [hdata]
      intro h
      exact List.cons_ne_nil _ _ (List.append_eq_nil.mp h).2
    have hstrip : stripSlashes (pre.data ++ '/' :: name.data) =
        pre.data ++ '/' :: name.data := by
      apply stripSlashes_id
      · intro c hc he
        cases hp : pre.data with
        | nil => exact absurd hp hpre.1
        | cons a as =>
          rw [hp] at hc
          simp only [List.cons_append, List.head?_cons, Option.mem_def,
            Option.some.injEq] at hc
          exact hpre.2 (he ▸ hc ▸ (hp ▸ List.mem_cons_self a as))
      · intro c hc he
        rw [List.getLast?_append_of_ne_nil _ (List.cons_ne_nil '/' name.data),
          show '/' :: name.data = ['/'] ++ name.data from rfl,
          List.getLast?_append_of_ne_nil _ hn.1] at hc
        exact noslash_getLast hn.2 c hc he
    have hbody : projectBody (pre ++ "/" ++ name).data =
        pre.data ++ '/' :: name.data := by
      rw [hdata]
      unfold projectBody
      rw [hstrip, dropPrefixCh_projects_pre_none pre.data name.data hpre.2
        (fun h => hpne (string_data_inj h))]
    exact denormalizeProjectName_err_slash _ h0
      (by rw [hbody]; exact List.mem_append.mpr (Or.inr (List.mem_cons_self _ _)))
  · -- bare lowercase name succeeds unchanged
    exact denormalizeProjectName_ok_of_body name name hn.1 hnup
      (projectBody_noslash name.data hn.2) hn
  · -- a leading projects/ qualifier is stripped
    have h0 : ("projects/" ++ name).data ≠ [] :=
      ne_nil_of_head?_eq_some (show ("projects/" ++ name).data.head? = some 'p' from rfl)
    have h1 : (("projects/" ++ name).data.any fun c => c.isUpper) = false := by
      rw [String.data_append, List.any_append, hnup,
        show ("projects/".data.any fun c => c.isUpper) = false from by decide]
      rfl
    have hbody : projectBody ("projects/" ++ name).data = name.data := by
      rw [String.data_append]
      exact projectBody_projects name.data hn.1 hn.2
    exact denormalizeProjectName_ok_of_body _ name h0 h1 hbody hn
  · -- surrounding slashes are stripped
    have h0 : ("/" ++ name ++ "/").data ≠ [] :=
      ne_nil_of_head?_eq_some (show ("/" ++ name ++ "/").data.head? = some '/' from rfl)
    have hdata6 : ("/" ++ name ++ "/").data = '/' :: (name.data ++ ['/']) := rfl
    have h1 : (("/" ++ name ++ "/").data.any fun c => c.isUpper) = false := by
      rw [hdata6]
      simp [List.any_append, hnup, show ('/'.isUpper) = false from by decide]
    have hbody : projectBody ("/" ++ name ++ "/").data = name.data := by
      rw [hdata6]
      have hb := projectBody_wrap name.data hn.1 (noslash_head hn.2) (noslash_getLast hn.2)
      rw [dropPrefixCh_projects_none name.data hn.2] at hb
      simpa using hb
    exact denormalizeProjectName_ok_of_body _ name h0 h1 hbody hn
  · -- surrounding slashes and the projects/ qualifier together
    have h0 : ("/projects/" ++ name ++ "/").data ≠ [] :=
      ne_nil_of_head?_eq_some
        (show ("/projects/" ++ name ++ "/").data.head? = some '/' from rfl)
    have hdata7 : ("/projects/" ++ name ++ "/").data =
        '/' :: (("projects/".data ++ name.data) ++ ['/']) := rfl
    have h1 : (("/projects/" ++ name ++ "/").data.any fun c => c.isUpper) = false := by
      rw [hdata7]
      simp [List.any_append, hnup, show ('/'.isUpper) = false from by decide,
        show ("projects/".data.any fun c => c.isUpper) = false from by decide]
    have hbody : projectBody ("/projects/" ++ name ++ "/").data = name.data := by
      rw [hdata7]
      have hcs : "projects/".data ++ name.data ≠ [] :=
        ne_nil_of_head?_eq_some
          (show ("projects/".data ++ name.data).head? = some 'p' from rfl)
      have hh : ∀ c ∈ ("projects/".data ++ name.data).head?, ¬(c = '/') := by
        intro c hc he
        rw [show ("projects/".data ++ name.data).head? = some 'p' from rfl] at hc
        simp only [Option.mem_def, Option.some.injEq] at hc
        exact absurd (hc ▸ he) (by decide)
      have hl : ∀ c ∈ ("projects/".data ++ name.data).getLast?, ¬(c = '/') := by
        intro c hc he
        rw [List.getLast?_append_of_ne_nil _ hn.1] at hc
        exact noslash_getLast hn.2 c hc he
      have hb := projectBody_wrap ("projects/".data ++ name.data) hcs hh hl
      rw [dropPrefixCh_self_append] at hb
      simpa using hb
    exact denormalizeProjectName_ok_of_body _ name h0 h1 hbody hn
  · -- a second application leaves any successful value unchanged
    intro p v h
    unfold denormalizeProjectName at h
    dsimp only at h
    by_cases h0 : p.data = []
    · rw [if_pos h0] at h
      exact absurd h (by simp)
    rw [if_neg h0] at h
    by_cases h1 : (p.data.any fun c => c.isUpper) = true
    · rw [if_pos h1] at h
      exact absurd h (by simp)
    rw [if_neg h1] at h
    by_cases h2 : projectBody p.data = []
    · rw [if_pos h2] at h
      exact absurd h (by simp)
    rw [if_neg h2] at h
    by_cases h3 : '/' ∈ projectBody p.data
    · rw [if_pos h3] at h
      exact absurd h (by simp)
    rw [if_neg h3] at h
    have hv : v = String.mk (projectBody p.data) := by
      have h' := h
      simp only [Except.ok.injEq] at h'
      exact h'.symm
    subst hv
    have h1' : ((projectBody p.data).any fun c => c.isUpper) = false := by
      cases hb : (projectBody p.data).any fun c => c.isUpper with
      | false => rfl
      | true =>
        obtain ⟨c, hc, hcu⟩ := List.any_eq_true.mp hb
        exact absurd (List.any_eq_true.mpr ⟨c, mem_of_mem_projectBody hc, hcu⟩) h1
    exact denormalizeProjectName_ok_of_body _ _ h2 h1'
      (projectBody_noslash _ h3) ⟨h2, h3⟩

/-- C10 witness: the project-name denormalization theorem applied to the
concrete values exercised by `testDenormalizeProjectName`. -/
theorem claim_C10_witness :
    (WFseg "project_collection" ∧ ("project_collection" : String) ≠ "projects" ∧
      WFseg "google" ∧ ("google".data.any fun c => c.isUpper) = false) ∧
    denormalizeProjectName none = Except.error CommandError.missingProject ∧
    denormalizeProjectName (some "MyUppercaseProject-1") =
      Except.error CommandError.uppercaseProject ∧
    (denormalizeProjectName (some ("project_collection" ++ "/" ++ "google")) =
        Except.error CommandError.uppercaseProject ∨
      denormalizeProjectName (some ("project_collection" ++ "/" ++ "google")) =
        Except.error CommandError.malformedProject) ∧
    denormalizeProjectName (some ("projects/" ++ "google")) = Except.ok "google" ∧
    denormalizeProjectName (some "google") = Except.ok "google" :=
  have h := claim_C10_theorem "project_collection" "google"
    (by decide) (by decide) (by decide) (by decide)
  ⟨⟨by decide, by decide, by decide, by decide⟩, h.1,
    h.2.1 "MyUppercaseProject-1" (by decide), h.2.2.1, h.2.2.2.2.1, h.2.2.2.1⟩

theorem executeRequests_results_length {ε α : Type} (requests : List (Except ε α)) :
    (ExecuteRequests requests).1.length + (requests.filter isFailure).length =
      requests.length := by
  induction requests with
  | nil => rfl
  | cons r rest ih =>
    cases r with
    | ok a =>
      simp only [ExecuteRequests] at ih ⊢
      simp [List.filterMap_cons, List.filter_cons, isFailure] at ih ⊢
      omega
    | error e =>
      simp only [ExecuteRequests] at ih ⊢
      simp [List.filterMap_cons, List.filter_cons, isFailure] at ih ⊢
      omega

theorem executeRequests_exceptions_length {ε α : Type} (requests : List (Except ε α)) :
    (ExecuteRequests requests).2.length = (requests.filter isFailure).length := by
  induction requests with
  | nil => rfl
  | cons r rest ih =>
    cases r with
    | ok a =>
      simp only [ExecuteRequests] at ih ⊢
      simp [List.filterMap_cons, List.filter_cons, isFailure] at ih ⊢
      omega
    | error e =>
      simp only [ExecuteRequests] at ih ⊢
      simp [List.filterMap_cons, List.filter_cons, isFailure] at ih ⊢
      omega

theorem executeRequests_count {ε α : Type} [DecidableEq ε] [DecidableEq α]
    (requests : List (Except ε α)) (a : α) :
    (ExecuteRequests requests).1.count a = requests.count (Except.ok a) := by
  induction requests with
  | nil => rfl
  | cons r rest ih =>
    cases r with
    | ok b =>
      simp only [ExecuteRequests] at ih ⊢
      by_cases hab : b = a
      · subst hab
        simp [List.filterMap_cons, List.count_cons, ih]
      · simp [List.filterMap_cons, List.count_cons, ih, hab]
    | error e =>
      simp only [ExecuteRequests] at ih ⊢
      simp [List.filterMap_cons, List.count_cons, ih]

theorem executeRequests_order {ε α : Type} (requests : List (Except ε α)) :
    ((ExecuteRequests requests).1.map Except.ok).Sublist requests := by
  induction requests with
  | nil => simp [ExecuteRequests]
  | cons r rest ih =>
    cases r with
    | ok a =>
      simp only [ExecuteRequests] at ih ⊢
      simp only [List.filterMap_cons, List.map_cons]
      exact List.Sublist.cons₂ _ ih
    | error e =>
      simp only [ExecuteRequests] at ih ⊢
      simp only [List.filterMap_cons]
      exact List.Sublist.cons _ ih

/-- C2. For every batch of K requests executed by `ExecuteRequests` in
which exactly one request raises, the returned pair has
`results.length = K - 1` and `exceptions.length = 1`; every successful
result appears exactly once (none dropped or duplicated, expressed by the
occurrence counts) and the successes keep their original submission order
(expressed by the sublist embedding); no request's failure prevents any
sibling request from completing. -/
theorem claim_C2_theorem {ε α : Type} [DecidableEq ε] [DecidableEq α]
    (requests : List (Except ε α)) (K : Nat) (hK : requests.length = K)
    (hone : (requests.filter isFailure).length = 1) :
    (ExecuteRequests requests).1.length = K - 1 ∧
    (ExecuteRequests requests).2.length = 1 ∧
    (∀ a : α, (ExecuteRequests requests).1.count a = requests.count (Except.ok a)) ∧
    ((ExecuteRequests requests).1.map Except.ok).Sublist requests := by
  refine ⟨?_, ?_, fun a => executeRequests_count requests a, executeRequests_order requests⟩
  · have h := executeRequests_results_length requests
    rw [hone, hK] at h
    omega
  · rw [executeRequests_exceptions_length, hone]

/-- C2 witness: a four-request batch whose third request raises. -/
theorem claim_C2_witness :
    (([Except.ok 10, Except.ok 20, Except.error "boom", Except.ok 30] :
        List (Except String Nat)).filter isFailure).length = 1 ∧
    (ExecuteRequests ([Except.ok 10, Except.ok 20, Except.error "boom", Except.ok 30] :
        List (Except String Nat))).1.length = 3 ∧
    (ExecuteRequests ([Except.ok 10, Except.ok 20, Except.error "boom", Except.ok 30] :
        List (Except String Nat))).2.length = 1 ∧
    (ExecuteRequests ([Except.ok 10, Except.ok 20, Except.error "boom", Except.ok 30] :
        List (Except String Nat))).1.count 10 =
      ([Except.ok 10, Except.ok 20, Except.error "boom", Except.ok 30] :
        List (Except String Nat)).count (Except.ok 10) ∧
    ((ExecuteRequests ([Except.ok 10, Except.ok 20, Except.error "boom", Except.ok 30] :
        List (Except String Nat))).1.map Except.ok).Sublist
      ([Except.ok 10, Except.ok 20, Except.error "boom", Except.ok 30] :
        List (Except String Nat)) :=
  have h := claim_C2_theorem
    ([Except.ok 10, Except.ok 20, Except.error "boom", Except.ok 30] :
      List (Except String Nat)) 4 (by decide) (by decide)
  ⟨by decide, h.1, h.2.1, h.2.2.1 10, h.2.2.2⟩

theorem paginateAux_single {α : Type} (fetch : Option String → ScopedList α)
    (fuel : Nat) (tok : Option String) (h : (fetch tok).nextPageToken = none)
    (hfuel : 0 < fuel) :
    paginateAux fetch fuel tok = ((fetch tok).items, [tok]) := by
  obtain ⟨n, rfl⟩ : ∃ n, fuel = n + 1 := ⟨fuel - 1, by omega⟩
  simp [paginateAux, h]

/-- C8. For every scope bucket whose list call returns a `nextPageToken` on
page one and no token on page two, the pagination loop issues exactly two
list calls for that bucket — the first without a token and the second
carrying the returned token — and the bucket's contribution is the
concatenation of page one's items followed by page two's items, in
order. -/
theorem claim_C8_theorem {α : Type} (fetch : Option String → ScopedList α)
    (t : String) (fuel : Nat)
    (h1 : (fetch none).nextPageToken = some t)
    (h2 : (fetch (some t)).nextPageToken = none)
    (hfuel : 2 ≤ fuel) :
    paginateAux fetch fuel none =
      ((fetch none).items ++ (fetch (some t)).items, [none, some t]) := by
  obtain ⟨n, rfl⟩ : ∃ n, fuel = n + 2 := ⟨fuel - 2, by omega⟩
  simp [paginateAux, h1, h2]

/-- C8 witness: the pagination theorem applied to a concrete two-page
bucket. -/
theorem claim_C8_witness :
    (twoPageFetch none).nextPageToken = some "page2" ∧
    (twoPageFetch (some "page2")).nextPageToken = none ∧
    paginateAux twoPageFetch 2 none =
      (["a1", "a2", "b1"], [none, some "page2"]) :=
  ⟨rfl, rfl, claim_C8_theorem twoPageFetch "page2" 2 rfl rfl (by omega)⟩

theorem mem_sortNames {names : List String} {z : String} (h : z ∈ names) :
    z ∈ sortNames names :=
  (List.perm_insertionSort (fun a b => lexLe a b = true) names).mem_iff.mpr h

/-- C1. For an aggregated listing over zone buckets, region buckets, and an
optional global bucket (each bucket answering its first page without a
continuation token), the merged result is exactly the zone buckets'
items in name-sorted zone order, then the region buckets' items in
name-sorted region order, then the global bucket's items — and therefore
contains every item of every bucket, even when some bucket's first page
carries only a non-fatal warning and contributes zero items (the fetch
functions are arbitrary, so any bucket may answer
`ScopedList.mk [] (some "UNREACHABLE") none` without affecting the other
buckets' contributions). -/
theorem claim_C1_theorem {α : Type} (zoneNames regionNames : List String)
    (hasGlobal : Bool)
    (fetchZone fetchRegion : String → Option String → ScopedList α)
    (fetchGlobal : Option String → ScopedList α) (fuel : Nat) (hfuel : 0 < fuel)
    (hz : ∀ z ∈ zoneNames, (fetchZone z none).nextPageToken = none)
    (hr : ∀ r ∈ regionNames, (fetchRegion r none).nextPageToken = none)
    (hg : (fetchGlobal none).nextPageToken = none) :
    aggregatedHandle zoneNames regionNames hasGlobal fetchZone fetchRegion
        fetchGlobal fuel =
      ((sortNames zoneNames).map (fun z => (fetchZone z none).items)).flatten
        ++ ((sortNames regionNames).map (fun r => (fetchRegion r none).items)).flatten
        ++ (if hasGlobal then (fetchGlobal none).items else []) ∧
    (∀ z ∈ zoneNames, ∀ x ∈ (fetchZone z none).items,
      x ∈ aggregatedHandle zoneNames regionNames hasGlobal fetchZone fetchRegion
        fetchGlobal fuel) ∧
    (∀ r ∈ regionNames, ∀ x ∈ (fetchRegion r none).items,
      x ∈ aggregatedHandle zoneNames regionNames hasGlobal fetchZone fetchRegion
        fetchGlobal fuel) ∧
    (hasGlobal = true → ∀ x ∈ (fetchGlobal none).items,
      x ∈ aggregatedHandle zoneNames regionNames hasGlobal fetchZone fetchRegion
        fetchGlobal fuel) := by
  have hpermz := List.perm_insertionSort (fun a b => lexLe a b = true) zoneNames
  have hpermr := List.perm_insertionSort (fun a b => lexLe a b = true) regionNames
  have hzmap : (sortNames zoneNames).map (fun z => (paginateAux (fetchZone z) fuel none).1) =
      (sortNames zoneNames).map (fun z => (fetchZone z none).items) := by
    apply List.map_congr_left
    intro z hzz
    rw [paginateAux_single (fetchZone z) fuel none (hz z (hpermz.mem_iff.mp hzz)) hfuel]
  have hrmap : (sortNames regionNames).map (fun r => (paginateAux (fetchRegion r) fuel none).1) =
      (sortNames regionNames).map (fun r => (fetchRegion r none).items) := by
    apply List.map_congr_left
    intro r hrr
    rw [paginateAux_single (fetchRegion r) fuel none (hr r (hpermr.mem_iff.mp hrr)) hfuel]
  have hgpag : (if hasGlobal then (paginateAux fetchGlobal fuel none).1 else []) =
      (if hasGlobal then (fetchGlobal none).items else []) := by
    cases hasGlobal with
    | false => rfl
    | true => simp [paginateAux_single fetchGlobal fuel none hg hfuel]
  have hmain : aggregatedHandle zoneNames regionNames hasGlobal fetchZone fetchRegion
      fetchGlobal fuel =
      ((sortNames zoneNames).map (fun z => (fetchZone z none).items)).flatten
        ++ ((sortNames regionNames).map (fun r => (fetchRegion r none).items)).flatten
        ++ (if hasGlobal then (fetchGlobal none).items else []) := by
    unfold aggregatedHandle
    rw [hzmap, hrmap, hgpag]
  refine ⟨hmain, ?_, ?_, ?_⟩
  · intro z hzz x hx
    rw [hmain]
    refine List.mem_append.mpr (Or.inl (List.mem_append.mpr (Or.inl ?_)))
    exact List.mem_flatten.mpr
      ⟨(fetchZone z none).items, List.mem_map.mpr ⟨z, mem_sortNames hzz, rfl⟩, hx⟩
  · intro r hrr x hx
    rw [hmain]
    refine List.mem_append.mpr (Or.inl (List.mem_append.mpr (Or.inr ?_)))
    exact List.mem_flatten.mpr
      ⟨(fetchRegion r none).items, List.mem_map.mpr ⟨r, mem_sortNames hrr, rfl⟩, hx⟩
  · intro hglob x hx
    rw [hmain, hglob]
    exact List.mem_append.mpr (Or.inr (by simpa using hx))

/-- C1 witness: three zone buckets (zone `c` unreachable, contributing
nothing), two region buckets listed out of order, and a global bucket; the
merge contains every item and follows the order zones (sorted), regions
(sorted), global. -/
theorem claim_C1_witness :
    ((0 : Nat) < 1 ∧
      (∀ z ∈ ["b", "a", "c"], (witnessZoneFetch z none).nextPageToken = none) ∧
      (∀ r ∈ ["region-s", "region-r"], (witnessRegionFetch r none).nextPageToken = none) ∧
      (witnessGlobalFetch none).nextPageToken = none) ∧
    aggregatedHandle ["b", "a", "c"] ["region-s", "region-r"] true
        witnessZoneFetch witnessRegionFetch witnessGlobalFetch 1 =
      ["object-a", "object-b", "object-r1", "object-r2", "object-s", "object-global"] ∧
    "object-b" ∈ aggregatedHandle ["b", "a", "c"] ["region-s", "region-r"] true
        witnessZoneFetch witnessRegionFetch witnessGlobalFetch 1 :=
  have h := claim_C1_theorem ["b", "a", "c"] ["region-s", "region-r"] true
    witnessZoneFetch witnessRegionFetch witnessGlobalFetch 1
    (by decide) (by decide) (by decide) (by decide)
  ⟨⟨by decide, by decide, by decide, by decide⟩,
    h.1.trans (by decide),
    h.2.1 "b" (by decide) "object-b" (by decide)⟩

theorem waitPoll_pending (get : Nat → Operation)
    (hget : ∀ k, (get k).status = OpStatus.PENDING) :
    ∀ (d t polls : Nat) (op : Operation), op.status = OpStatus.PENDING →
      waitPoll get (t + d) 1 (d + 1) t polls op =
        (if d = 0 then op else get (polls + d - 1), polls + d) := by
  intro d
  induction d with
  | zero =>
    intro t polls op hop
    simp [waitPoll, hop, isTerminal]
  | succ d ih =>
    intro t polls op hop
    have h1 : ¬(isTerminal op.status = true) := by
      rw [hop]
      decide
    have h2 : ¬(t + (d + 1) ≤ t) := by omega
    show waitPoll get (t + (d + 1)) 1 (d + 1 + 1) t polls op = _
    rw [waitPoll, if_neg h1, if_neg h2,
      show t + (d + 1) = (t + 1) + d by omega,
      ih (t + 1) (polls + 1) (get polls) (hget polls)]
    by_cases hd : d = 0
    · subst hd
      simp
    · simp only [hd, if_false, Nat.succ_ne_zero]
      refine Prod.ext ?_ (by omega)
      show get (polls + 1 + d - 1) = get (polls + (d + 1) - 1)
      congr 1
      omega

/-- C3. For every operation whose polled status never leaves `PENDING`,
`WaitForOperation` with max wait time 30 and sleep interval 1 issues
exactly 30 `get` polls, terminates, and returns the last fetched resource
(the 30th poll's answer), which still carries status `PENDING`; no error
is signalled. -/
theorem claim_C3_theorem (get : Nat → Operation) (op : Operation)
    (hop : op.isOperation = true) (hst : op.status = OpStatus.PENDING)
    (hget : ∀ k, (get k).status = OpStatus.PENDING) :
    WaitForOperation get 30 1 op = (get 29, 30) ∧
    (WaitForOperation get 30 1 op).1.status = OpStatus.PENDING := by
  have h := waitPoll_pending get hget 30 0 0 op hst
  have heq : WaitForOperation get 30 1 op = (get 29, 30) := by
    unfold WaitForOperation
    rw [if_pos hop]
    simpa using h
  exact ⟨heq, by rw [heq]; exact hget 29⟩

/-- C3 witness: the stuck-operation scenario of `testWaitForOperation`:
30 polls, result still `PENDING`. -/
theorem claim_C3_witness :
    stuckOperation.isOperation = true ∧
    stuckOperation.status = OpStatus.PENDING ∧
    WaitForOperation (fun _ => stuckOperation) 30 1 stuckOperation =
      (stuckOperation, 30) :=
  ⟨rfl, rfl,
    (claim_C3_theorem (fun _ => stuckOperation) stuckOperation rfl rfl
      (fun _ => rfl)).1⟩

/-- C7. For every pair of supported ApiVersion tokens, the order used by
the at-least-version check agrees with comparison of the numeric suffixes
of the versions — and not with lexicographic comparison of the full
tokens: `v1beta14` precedes `v1beta2` lexicographically, yet the check
orders it after `v1beta2`, following the numeric suffixes 14 and 2.  The
concrete expectations of `testVersionComparison` hold as well. -/
theorem claim_C7_theorem :
    (∀ a ∈ supportedVersions, ∀ b ∈ supportedVersions,
      (isUsingAtLeastApiVersion a b = true ↔
        versionSuffixNum b ≤ versionSuffixNum a)) ∧
    isUsingAtLeastApiVersion "v1beta2" "v1beta14" = false ∧
    isUsingAtLeastApiVersion "v1beta14" "v1beta2" = true ∧
    versionSuffixNum "v1beta2" < versionSuffixNum "v1beta14" ∧
    lexLe "v1beta14" "v1beta2" = true ∧
    isUsingAtLeastApiVersion "v1beta4" "v1beta6" = false ∧
    isUsingAtLeastApiVersion "v1beta4" "v1beta5" = false ∧
    isUsingAtLeastApiVersion "v1beta4" "v1beta4" = true ∧
    isUsingAtLeastApiVersion "v1beta4" "v1beta2" = true ∧
    isUsingAtLeastApiVersion "v1beta6" "v1beta6" = true ∧
    isUsingAtLeastApiVersion "v1beta6" "v1beta5" = true := by
  decide

/-- C7 witness: the agreement between the version order and the numeric
suffix order, instantiated at the pair `v1beta15`, `v1beta14`. -/
theorem claim_C7_witness :
    ("v1beta15" ∈ supportedVersions ∧ "v1beta14" ∈ supportedVersions) ∧
    (isUsingAtLeastApiVersion "v1beta15" "v1beta14" = true ↔
      versionSuffixNum "v1beta14" ≤ versionSuffixNum "v1beta15") :=
  ⟨⟨by decide, by decide⟩,
    claim_C7_theorem.1 "v1beta15" (by decide) "v1beta14" (by decide)⟩

/-- C9. For a collection supporting exactly one scope kind, when no scope
flag is supplied and the candidate listing returns exactly one candidate,
the Scope Resolver selects that candidate automatically and never invokes
the interactive prompt: the outcome does not depend on the prompt function
at all and reports that no prompt was shown. -/
theorem claim_C9_theorem (c : String) (ask ask' : List String → Nat) :
    resolveScope none [c] ask = Except.ok (c, false) ∧
    resolveScope none [c] ask = resolveScope none [c] ask' :=
  ⟨rfl, rfl⟩

end Gcutil
